import Mathlib

/-!
Verification development for the papyrus p2p-sync and network crates.

The development shallowly embeds:
  * the p2p-sync state-diff engine (per-block assembly, length validation and
    atomic commit) together with its storage discipline;
  * the peer manager's `assign_peer_to_query` round-robin selection
    (crates/papyrus_network/src/peer_manager/mod.rs);
  * the network manager's inbound-session frame pipeline;
  * `decompress_program` and `FeeEstimate::from`
    (crates/papyrus_rpc/src/v0_4_0/api/mod.rs).

Machine integers are modelled as `Nat` (no arithmetic here can overflow a
`u64`/`u128`/`usize` in the source paths modelled); `IndexMap`s are modelled as
association lists in insertion order; hashes, addresses and storage keys are
abstracted to `Nat`.
-/

/-- Modelled from the spec: `ThinStateDiff` (the state-diff engine's part type,
whose Rust definition lives in the starknet_api dependency, outside src/). The
six fields of the spec's data model; `IndexMap`s become association lists and
`ContractAddress`, `ClassHash`, `CompiledClassHash`, `StorageKey`, `StarkFelt`
and `Nonce` are abstracted to `Nat`. -/
structure ThinStateDiff where
  deployed_contracts : List (Nat × Nat)
  storage_diffs : List (Nat × List (Nat × Nat))
  declared_classes : List (Nat × Nat)
  deprecated_declared_classes : List Nat
  nonces : List (Nat × Nat)
  replaced_classes : List (Nat × Nat)
deriving DecidableEq, Repr

/-- The all-empty diff (`ThinStateDiff::default()`). -/
def ThinStateDiff.empty : ThinStateDiff := ⟨[], [], [], [], [], []⟩

/-- Modelled from the spec: `ThinStateDiff::len()` is the sum of cardinalities
across the six fields, where `storage_diffs` counts the populated inner
entries (a contract key mapped to an empty inner map contributes nothing). -/
def ThinStateDiff.len (d : ThinStateDiff) : Nat :=
  d.deployed_contracts.length
    + (d.storage_diffs.map (fun p => p.2.length)).sum
    + d.declared_classes.length
    + d.deprecated_declared_classes.length
    + d.nonces.length
    + d.replaced_classes.length

/-- Whether two association lists share an outer key. -/
def sharesKey {β : Type} (a b : List (Nat × β)) : Bool :=
  a.any (fun p => b.any (fun q => q.1 = p.1))

/-- Modelled from the spec: overlap between two diffs on any of the six
fields, a "same contract/class/key appearing twice". For the map fields this
is a shared outer key; for `deprecated_declared_classes` a shared class hash. -/
def ThinStateDiff.overlaps (a b : ThinStateDiff) : Bool :=
  sharesKey a.deployed_contracts b.deployed_contracts
    || sharesKey a.storage_diffs b.storage_diffs
    || sharesKey a.declared_classes b.declared_classes
    || a.deprecated_declared_classes.any
        (fun c => b.deprecated_declared_classes.contains c)
    || sharesKey a.nonces b.nonces
    || sharesKey a.replaced_classes b.replaced_classes

/-- Modelled from the spec: the strict part merge of the state-diff engine
(its Rust code is not under src/, only its tests are). Any overlap on any of
the six fields is a conflict, regardless of the values carried; otherwise the
fields are concatenated in arrival order. -/
def ThinStateDiff.merge (a b : ThinStateDiff) : Option ThinStateDiff :=
  if a.overlaps b then none
  else
    some
      ⟨a.deployed_contracts ++ b.deployed_contracts,
        a.storage_diffs ++ b.storage_diffs,
        a.declared_classes ++ b.declared_classes,
        a.deprecated_declared_classes ++ b.deprecated_declared_classes,
        a.nonces ++ b.nonces,
        a.replaced_classes ++ b.replaced_classes⟩

/-- The engine-level protocol violations of the error taxonomy
(`P2PSyncError`). -/
inductive P2PSyncError where
  | emptyStateDiffPart : P2PSyncError
  | wrongStateDiffLength (expected_length : Nat) (possible_lengths : List Nat) :
      P2PSyncError
  | conflictingStateDiffParts : P2PSyncError
deriving DecidableEq, Repr

/-- Outcome of feeding one received part to the per-block assembly. -/
inductive PartStep where
  | completed (diff : ThinStateDiff) : PartStep
  | more (acc : ThinStateDiff) (curLen : Nat) (lens : List Nat) : PartStep
  | failed (e : P2PSyncError) : PartStep
deriving DecidableEq, Repr

/-- Modelled from the spec: how the state-diff engine handles one received
part (engine code absent from src/; modelled from spec section 4.3 and the
tests in crates/papyrus_p2p_sync/src/state_diff_test.rs). The part is first
rejected with `EmptyStateDiffPart` if its `len()` is zero; then merged
strictly (`ConflictingStateDiffParts` on overlap); after the merge the running
length is compared with the header's declared length: equal commits the block,
below waits for more parts, above fails with `WrongStateDiffLength` carrying
the running lengths reached at each merge boundary. -/
def processPart (expected : Nat) (acc : ThinStateDiff) (curLen : Nat)
    (lens : List Nat) (part : ThinStateDiff) : PartStep :=
  if part.len = 0 then .failed .emptyStateDiffPart
  else
    match acc.merge part with
    | none => .failed .conflictingStateDiffParts
    | some merged =>
      let newLen := curLen + part.len
      if newLen = expected then .completed merged
      else if newLen < expected then .more merged newLen (lens ++ [newLen])
      else .failed (.wrongStateDiffLength expected (lens ++ [newLen]))

/-- Result of assembling one block from a stream of optional parts. -/
inductive AssembleResult where
  | accepted (diff : ThinStateDiff) (rest : List (Option ThinStateDiff)) :
      AssembleResult
  | failed (e : P2PSyncError) : AssembleResult
  | starved (acc : ThinStateDiff) (curLen : Nat) (lens : List Nat) :
      AssembleResult
deriving DecidableEq, Repr

/-- Modelled from the spec: the per-block assembly loop of the state-diff
engine over the response receiver. `some part` is a chunk, `none` marks
end-of-query; `none` arriving mid-block fails with `WrongStateDiffLength`
listing the running lengths reached so far. `starved` stands for the input
list ending while the engine would still await further parts. -/
def assemble (expected : Nat) (acc : ThinStateDiff) (curLen : Nat)
    (lens : List Nat) : List (Option ThinStateDiff) → AssembleResult
  | [] => .starved acc curLen lens
  | none :: _ => .failed (.wrongStateDiffLength expected lens)
  | some p :: rest =>
    match processPart expected acc curLen lens p with
    | .completed d => .accepted d rest
    | .more a c l => assemble expected a c l rest
    | .failed e => .failed e

/-- Folding the strict merge over a list of parts. -/
def mergeAll? (acc : ThinStateDiff) : List ThinStateDiff → Option ThinStateDiff
  | [] => some acc
  | p :: ps =>
    match acc.merge p with
    | none => none
    | some m => mergeAll? m ps

/-- The running lengths reached at each merge boundary, starting from
`curLen`. -/
def cumLens (curLen : Nat) : List ThinStateDiff → List Nat
  | [] => []
  | p :: ps => (curLen + p.len) :: cumLens (curLen + p.len) ps

/-- Modelled from the spec: the state store as the engine observes it (the
storage crate is outside src/). It appends per-block state diffs; the block at
index `b` of `diffs` is block `b`'s committed diff. -/
structure Storage where
  diffs : List ThinStateDiff
deriving DecidableEq, Repr

/-- The next unwritten block number (`storage.state_marker()`), monotonic. -/
def Storage.state_marker (s : Storage) : Nat := s.diffs.length

/-- Reading back a committed diff (`storage.get_state_diff(b)`). -/
def Storage.get_state_diff (s : Storage) (b : Nat) : Option ThinStateDiff :=
  s.diffs[b]?

/-- Appending block `state_marker`'s diff and advancing the marker, as one
atomic write. -/
def Storage.commitBlock (s : Storage) (d : ThinStateDiff) : Storage :=
  ⟨s.diffs ++ [d]⟩

/-- Phase of the engine while it works on one block. -/
inductive BlockPhase where
  | assembling (acc : ThinStateDiff) (curLen : Nat) (lens : List Nat) : BlockPhase
  | committed (diff : ThinStateDiff) : BlockPhase
  | failed (e : P2PSyncError) : BlockPhase
deriving DecidableEq, Repr

/-- The engine's state while processing one block: the storage it writes to,
the header's declared `state_diff_length` and the assembly phase. -/
structure BlockState where
  storage : Storage
  expected : Nat
  phase : BlockPhase
deriving DecidableEq, Repr

/-- Modelled from the spec: one step of the state-diff engine on one received
`Option ThinStateDiff`. While assembling, `none` mid-block fails with
`WrongStateDiffLength`; a part is processed by `processPart`, and a completed
block is appended to storage in the same step (the atomic per-block write).
The `committed` and `failed` phases absorb further input. -/
def engineStep (st : BlockState) (part : Option ThinStateDiff) : BlockState :=
  match st.phase with
  | .assembling acc curLen lens =>
    match part with
    | none => { st with phase := .failed (.wrongStateDiffLength st.expected lens) }
    | some p =>
      match processPart st.expected acc curLen lens p with
      | .completed d =>
        { st with storage := st.storage.commitBlock d, phase := .committed d }
      | .more a c l => { st with phase := .assembling a c l }
      | .failed e => { st with phase := .failed e }
  | _ => st

/-- Running the engine over a list of received items. -/
def runEngine (st : BlockState) (parts : List (Option ThinStateDiff)) : BlockState :=
  parts.foldl engineStep st

/-- The fresh engine state for a block over storage `s` with declared length
`expected`. -/
def initBlock (s : Storage) (expected : Nat) : BlockState :=
  ⟨s, expected, .assembling ThinStateDiff.empty 0 []⟩

/-- Direction of an `InternalQuery`. -/
inductive Direction where
  | forward : Direction
  | backward : Direction
deriving DecidableEq, Repr

/-- The data types multiplexed over the wire. -/
inductive DataType where
  | signedBlockHeader : DataType
  | stateDiff : DataType
deriving DecidableEq, Repr

/-- A subscriber query as the state-diff engine sends it. -/
structure Query where
  start_block : Nat
  direction : Direction
  limit : Nat
  step : Nat
  data_type : DataType
deriving DecidableEq, Repr

/-- Modelled from the spec: the state-diff queries the engine issues for one
header window (engine code absent from src/). With `k1 =
STATE_DIFF_QUERY_LENGTH`, headers available up to (exclusive) `headerMarker`
and `nextUnwritten` the next unwritten block, the engine issues
`ceil(headers_pending / k1)` queries; the i-th starts at the block that is
next-unwritten when it is issued and asks for `min(k1, remaining)` blocks,
Forward, step 1, data type StateDiff. -/
def stateDiffQueryWindows (k1 headerMarker nextUnwritten : Nat) : List Query :=
  (List.range ((headerMarker - nextUnwritten + k1 - 1) / k1)).map fun i =>
    { start_block := nextUnwritten + i * k1
      direction := .forward
      limit := min k1 (headerMarker - (nextUnwritten + i * k1))
      step := 1
      data_type := .stateDiff }

/-- A peer record as the peer manager observes it. The concrete peer type
(peer.rs) is outside src/: `blocked` is the value of `is_blocked()` at the
call, true iff `blocked_until` is in the future; `connected` is
`connection_id().is_some()`; the multiaddr is abstracted to a `Nat`. -/
structure Peer where
  blocked : Bool
  connected : Bool
  multiaddr : Nat
deriving DecidableEq, Repr

/-- The events `assign_peer_to_query` generates towards the swarm: a
`QueryAssigned` notification or a `Dial` command. -/
inductive PMEvent where
  | queryAssigned (query_id peer_id : Nat) : PMEvent
  | dial (peer_id multiaddr : Nat) : PMEvent
deriving DecidableEq, Repr

/-- The `PeerManager` state (crates/papyrus_network/src/peer_manager/mod.rs).
The `HashMap`s become association lists; for `peers` the list order stands for
the map's iteration order, which `assign_peer_to_query` rotates through. -/
structure PeerManager where
  peers : List (Nat × Peer)
  query_to_peer_map : List (Nat × Nat)
  last_peer_index : Nat
  pending_events : List PMEvent
  peer_pending_dial_with_events : List (Nat × List PMEvent)
deriving DecidableEq, Repr

/-- Map insert with overwrite, keeping first-insertion order. -/
def insertAssoc {β : Type} (m : List (Nat × β)) (k : Nat) (v : β) : List (Nat × β) :=
  if m.any (fun p => p.1 = k) then m.map fun p => if p.1 = k then (k, v) else p
  else m ++ [(k, v)]

/-- Pushing an event under a peer's pending-dial list, creating the entry when
absent (the get_mut-push-else-insert of the source). -/
def pushPendingDial (m : List (Nat × List PMEvent)) (k : Nat) (e : PMEvent) :
    List (Nat × List PMEvent) :=
  if m.any (fun p => p.1 = k) then m.map fun p => if p.1 = k then (p.1, p.2 ++ [e]) else p
  else m ++ [(k, [e])]

/-- Shallow embedding of `assign_peer_to_query`
(crates/papyrus_network/src/peer_manager/mod.rs lines 86-125). On an empty
peer set it returns `none`; otherwise it looks for the first non-blocked peer
in `peers.iter().skip(last_peer_index)` and then wraps to
`peers.iter().take(last_peer_index)`, unconditionally sets `last_peer_index :=
(last_peer_index + 1) % peers.len()`, and for a found peer records the query,
emitting `QueryAssigned` directly for a connected peer and queueing it under
the pending-dial list plus a `Dial` command otherwise. -/
def assign_peer_to_query (pm : PeerManager) (query_id : Nat) :
    Option Nat × PeerManager :=
  if pm.peers.isEmpty then (none, pm)
  else
    let rotation := pm.peers.drop pm.last_peer_index ++ pm.peers.take pm.last_peer_index
    let found := rotation.find? fun p => !p.2.blocked
    let pm1 := { pm with last_peer_index := (pm.last_peer_index + 1) % pm.peers.length }
    match found with
    | none => (none, pm1)
    | some (peer_id, peer) =>
      let pm2 :=
        { pm1 with query_to_peer_map := insertAssoc pm1.query_to_peer_map query_id peer_id }
      let event := PMEvent.queryAssigned query_id peer_id
      if peer.connected then
        (some peer_id, { pm2 with pending_events := pm2.pending_events ++ [event] })
      else
        (some peer_id,
          { pm2 with
              peer_pending_dial_with_events :=
                pushPendingDial pm2.peer_pending_dial_with_events peer_id event
              pending_events := pm2.pending_events ++ [PMEvent.dial peer_id peer.multiaddr] })

/-- Results of consecutive `assign_peer_to_query` calls, threading the state. -/
def assignSeq (pm : PeerManager) : List Nat → List (Option Nat)
  | [] => []
  | q :: qs =>
    let r := assign_peer_to_query pm q
    r.1 :: assignSeq r.2 qs

/-- The selection rule exactly as the spec sentence words it, written for
comparison with the source's `assign_peer_to_query`: the first non-blocked
peer in a rotation starting from the peer at index `last_peer_index + 1`,
wrapping around once. -/
def assignPeerSpecStartPlusOne (pm : PeerManager) : Option Nat :=
  ((pm.peers.drop (pm.last_peer_index + 1) ++ pm.peers.take (pm.last_peer_index + 1)).find?
    fun p => !p.2.blocked).map Prod.fst

/-- A frame sent on an inbound session: a data item or the `Fin` terminator. -/
inductive Frame (α : Type) where
  | data (d : α) : Frame α
  | fin (dt : DataType) : Frame α
deriving DecidableEq, Repr

/-- What the network manager reads from the DB executor's sink for one
session: an item, or the sink closing when the DB stream terminates. -/
inductive DbOutput (α : Type) where
  | item (d : α) : DbOutput α
  | terminated : DbOutput α
deriving DecidableEq, Repr

/-- The swarm commands the network manager issues for an inbound session. -/
inductive SwarmAction (α : Type) where
  | sendFrame (session_id : Nat) (f : Frame α) : SwarmAction α
  | closeInbound (session_id : Nat) : SwarmAction α
deriving DecidableEq, Repr

/-- Whether an inbound session's mapping is still registered. -/
inductive SessionPhase where
  | streaming : SessionPhase
  | closed : SessionPhase
deriving DecidableEq, Repr

/-- Modelled from the spec: the network manager's handling of one registered
inbound session (the manager's loop code is outside src/, only its tests are).
Each `Data` item read from the DB sink is sent as a frame; when the DB stream
terminates the manager sends `Fin(data_type)` and then closes the session,
after which the session mapping is dropped and nothing more is emitted. -/
def inboundSessionStep {α : Type} (session_id : Nat) (dt : DataType) :
    SessionPhase → DbOutput α → SessionPhase × List (SwarmAction α)
  | .streaming, .item d => (.streaming, [.sendFrame session_id (.data d)])
  | .streaming, .terminated =>
      (.closed, [.sendFrame session_id (.fin dt), .closeInbound session_id])
  | .closed, _ => (.closed, [])

/-- One fold step of an inbound session: step the phase and append the
emitted commands. -/
def inboundFoldStep {α : Type} (session_id : Nat) (dt : DataType)
    (s : SessionPhase × List (SwarmAction α)) (o : DbOutput α) :
    SessionPhase × List (SwarmAction α) :=
  let r := inboundSessionStep session_id dt s.1 o
  (r.1, s.2 ++ r.2)

/-- Running one inbound session over the DB executor's outputs, collecting the
swarm commands in order. -/
def runInboundSession {α : Type} (session_id : Nat) (dt : DataType)
    (outputs : List (DbOutput α)) : List (SwarmAction α) :=
  (outputs.foldl (inboundFoldStep session_id dt) (SessionPhase.streaming, [])).2

/-- Whether a swarm action is a `close-inbound` command. -/
def isCloseInbound {α : Type} : SwarmAction α → Bool
  | .closeInbound _ => true
  | _ => false

/-- How many `close-inbound` commands a list of swarm actions holds. -/
def countCloseInbound {α : Type} (actions : List (SwarmAction α)) : Nat :=
  (actions.filter isCloseInbound).length

/-- Outcome of `decompress_program`: a parsed program, the
`internal_server_error` reply, or a panic. -/
inductive DecompressOutcome where
  | ok (program : Nat) : DecompressOutcome
  | errInternalServerError : DecompressOutcome
  | panicked : DecompressOutcome
deriving DecidableEq, Repr

/-- The external codecs `decompress_program` composes, abstracted as partial
functions on byte strings (bytes as `Nat`, the parsed `Program` as `Nat`). -/
structure Codecs where
  base64Decode : List Nat → Option (List Nat)
  gzipDecompress : List Nat → Option (List Nat)
  jsonParseProgram : List Nat → Option Nat

/-- Shallow embedding of `decompress_program`
(crates/papyrus_rpc/src/v0_4_0/api/mod.rs lines 439-449). The body first runs
`base64::decode(base64_compressed_program).unwrap()`, discarding the result
(a panic when the input is not valid base64), then decodes the same input a
second time mapping a failure to `internal_server_error`, gunzips and parses
JSON. The second component of the result counts the base64 decodes performed. -/
def decompress_program (c : Codecs) (base64_compressed_program : List Nat) :
    DecompressOutcome × Nat :=
  match c.base64Decode base64_compressed_program with
  | none => (.panicked, 1)
  | some _ =>
    match c.base64Decode base64_compressed_program with
    | none => (.errInternalServerError, 2)
    | some compressed_data =>
      match c.gzipDecompress compressed_data with
      | none => (.errInternalServerError, 2)
      | some decompressed =>
        match c.jsonParseProgram decompressed with
        | none => (.errInternalServerError, 2)
        | some program => (.ok program, 2)

/-- The RPC fee estimate (crates/papyrus_rpc/src/v0_4_0/api/mod.rs lines
252-256); `gas_consumed` is a felt and `gas_price`, `overall_fee` are u128
newtypes, all modelled as `Nat` (the division below cannot overflow and its
quotient is below the felt prime). -/
structure FeeEstimate where
  gas_consumed : Nat
  gas_price : Nat
  overall_fee : Nat
deriving DecidableEq, Repr

/-- FeeEstimate::default(): all fields zero. -/
def FeeEstimate.default : FeeEstimate := ⟨0, 0, 0⟩

/-- Shallow embedding of `FeeEstimate::from` (crates/papyrus_rpc/src/v0_4_0/
api/mod.rs lines 258-267; `from` is a Lean keyword, hence the longer name):
a zero gas price yields the all-zero default, otherwise the estimate carries
the integer quotient and the inputs unchanged. -/
def FeeEstimate.fromGasPriceAndFee (gas_price overall_fee : Nat) : FeeEstimate :=
  match gas_price with
  | 0 => FeeEstimate.default
  | _ => ⟨overall_fee / gas_price, gas_price, overall_fee⟩

/-- One deprecated class hash: a part of length 1 (the shape the tests send). -/
def partLen1 : ThinStateDiff := ⟨[], [], [], [0], [], []⟩

/-- Two deprecated class hashes: a part of length 2. -/
def partLen2 : ThinStateDiff := ⟨[], [], [], [1, 2], [], []⟩

/-- A part whose only content is a contract key mapped to an empty storage
map: its `len()` is zero. -/
def emptyStoragePart : ThinStateDiff := ⟨[], [(0, [])], [], [], [], []⟩

/-- An accumulated diff holding one storage entry under contract 0. -/
def accWithStorage : ThinStateDiff := ⟨[], [(0, [(0, 0)])], [], [], [], []⟩

/-- An accumulated diff with contract 0 deployed with class hash 0. -/
def accDeployed : ThinStateDiff := ⟨[(0, 0)], [], [], [], [], []⟩

/-- A part deploying the same contract 0 but with a different class hash 1. -/
def partDeployedSameKey : ThinStateDiff := ⟨[(0, 1)], [], [], [], [], []⟩

/-- A peer manager whose only peer is blocked. -/
def blockedOnlyPM : PeerManager := ⟨[(0, ⟨true, true, 0⟩)], [], 0, [], []⟩

/-- A peer manager with two non-blocked connected peers and
`last_peer_index = 0`. -/
def twoPeerPM : PeerManager :=
  ⟨[(10, ⟨false, true, 0⟩), (20, ⟨false, true, 0⟩)], [], 0, [], []⟩

/-- Codecs on which every decode fails. -/
def noneCodecs : Codecs := ⟨fun _ => none, fun _ => none, fun _ => none⟩

/-- Codecs on which every decode succeeds. -/
def idCodecs : Codecs := ⟨fun b => some b, fun b => some b, fun _ => some 0⟩

/-- Membership in the wrapped-once rotation is membership in the list. -/
theorem mem_rotation {α : Type} (l : List α) (i : Nat) (x : α) :
    x ∈ l.drop i ++ l.take i ↔ x ∈ l := by
  rw [List.mem_append]
  constructor
  · rintro (h | h)
    · exact List.mem_of_mem_drop h
    · exact List.mem_of_mem_take h
  · intro h
    rw [← List.take_append_drop i l, List.mem_append] at h
    exact h.symm

/-- Exhaustive case analysis of `processPart`: empty part, conflicting merge,
completion at the declared length, accumulation below it, or overshoot. -/
theorem processPart_cases (expected : Nat) (acc : ThinStateDiff) (curLen : Nat)
    (lens : List Nat) (p : ThinStateDiff) :
    (p.len = 0 ∧ processPart expected acc curLen lens p = .failed .emptyStateDiffPart)
    ∨ (p.len ≠ 0 ∧ acc.merge p = none ∧
        processPart expected acc curLen lens p = .failed .conflictingStateDiffParts)
    ∨ (∃ m, p.len ≠ 0 ∧ acc.merge p = some m ∧ curLen + p.len = expected ∧
        processPart expected acc curLen lens p = .completed m)
    ∨ (∃ m, p.len ≠ 0 ∧ acc.merge p = some m ∧ curLen + p.len < expected ∧
        processPart expected acc curLen lens p =
          .more m (curLen + p.len) (lens ++ [curLen + p.len]))
    ∨ (∃ m, p.len ≠ 0 ∧ acc.merge p = some m ∧ expected < curLen + p.len ∧
        processPart expected acc curLen lens p =
          .failed (.wrongStateDiffLength expected (lens ++ [curLen + p.len]))) := by
  by_cases hp : p.len = 0
  · exact Or.inl ⟨hp, by simp [processPart, hp]⟩
  · cases hm : acc.merge p with
    | none => exact Or.inr (Or.inl ⟨hp, rfl, by simp [processPart, hp, hm]⟩)
    | some m =>
      by_cases h1 : curLen + p.len = expected
      · exact Or.inr (Or.inr (Or.inl ⟨m, hp, rfl, h1, by simp [processPart, hp, hm, h1]⟩))
      · by_cases h2 : curLen + p.len < expected
        · exact Or.inr (Or.inr (Or.inr (Or.inl
            ⟨m, hp, rfl, h2, by simp [processPart, hp, hm, h1, h2]⟩)))
        · have h3 : expected < curLen + p.len := by omega
          exact Or.inr (Or.inr (Or.inr (Or.inr
            ⟨m, hp, rfl, h3, by simp [processPart, hp, hm, h1, h2]⟩)))

/-- When every merge boundary stays below the declared length, the end-of-query
marker makes the assembly fail with the full boundary list. -/
theorem assemble_below (expected : Nat) :
    ∀ (ps : List ThinStateDiff) (acc : ThinStateDiff) (curLen : Nat) (lens : List Nat),
      (∀ p ∈ ps, p.len ≠ 0) → (mergeAll? acc ps).isSome = true → curLen < expected →
      (∀ s ∈ cumLens curLen ps, s < expected) →
      assemble expected acc curLen lens (ps.map some ++ [none]) =
        .failed (.wrongStateDiffLength expected (lens ++ cumLens curLen ps)) := by
  intro ps
  induction ps with
  | nil =>
    intro acc curLen lens _ _ _ _
    simp [assemble, cumLens]
  | cons p rest ih =>
    intro acc curLen lens hne hm hcur hbelow
    have hplen : p.len ≠ 0 := hne p (by simp)
    have hlt : curLen + p.len < expected := hbelow _ (by simp [cumLens])
    obtain ⟨m, hm2⟩ : ∃ m, acc.merge p = some m := by
      cases hm2 : acc.merge p with
      | none =>
        rw [mergeAll?, hm2] at hm
        simp at hm
      | some m => exact ⟨m, rfl⟩
    have hpp : processPart expected acc curLen lens p =
        .more m (curLen + p.len) (lens ++ [curLen + p.len]) := by
      simp [processPart, hplen, hm2, Nat.ne_of_lt hlt, hlt]
    have hmrest : (mergeAll? m rest).isSome = true := by
      rw [mergeAll?, hm2] at hm
      exact hm
    rw [List.map_cons, List.cons_append]
    rw [show assemble expected acc curLen lens (some p :: (rest.map some ++ [none])) =
        assemble expected m (curLen + p.len) (lens ++ [curLen + p.len])
          (rest.map some ++ [none]) by simp [assemble, hpp]]
    rw [ih m (curLen + p.len) (lens ++ [curLen + p.len]) (fun q hq => hne q (by simp [hq]))
      hmrest hlt (fun s hs => hbelow s (by simp [cumLens, hs]))]
    simp [cumLens, List.append_assoc]

/-- When the first merge boundary reaching the declared length strictly
exceeds it, the assembly fails with the boundaries up to and including it. -/
theorem assemble_exceeds (expected : Nat) :
    ∀ (ps : List ThinStateDiff) (acc : ThinStateDiff) (curLen : Nat) (lens : List Nat)
      (i s : Nat),
      (∀ p ∈ ps, p.len ≠ 0) → (mergeAll? acc ps).isSome = true → curLen < expected →
      (∀ x ∈ (cumLens curLen ps).take i, x < expected) →
      (cumLens curLen ps).get? i = some s → expected < s →
      assemble expected acc curLen lens (ps.map some ++ [none]) =
        .failed (.wrongStateDiffLength expected
          (lens ++ (cumLens curLen ps).take (i + 1))) := by
  intro ps
  induction ps with
  | nil =>
    intro acc curLen lens i s _ _ _ _ hget _
    simp [cumLens] at hget
  | cons p rest ih =>
    intro acc curLen lens i s hne hm hcur htake hget hgt
    have hplen : p.len ≠ 0 := hne p (by simp)
    obtain ⟨m, hm2⟩ : ∃ m, acc.merge p = some m := by
      cases hm2 : acc.merge p with
      | none =>
        rw [mergeAll?, hm2] at hm
        simp at hm
      | some m => exact ⟨m, rfl⟩
    have hmrest : (mergeAll? m rest).isSome = true := by
      rw [mergeAll?, hm2] at hm
      exact hm
    cases i with
    | zero =>
      rw [show cumLens curLen (p :: rest) =
          (curLen + p.len) :: cumLens (curLen + p.len) rest from rfl] at hget
      simp at hget
      subst hget
      have hpp : processPart expected acc curLen lens p =
          .failed (.wrongStateDiffLength expected (lens ++ [curLen + p.len])) := by
        have hne2 : curLen + p.len ≠ expected := by omega
        have hnl : ¬ curLen + p.len < expected := by omega
        simp [processPart, hplen, hm2, hne2, hnl]
      rw [List.map_cons, List.cons_append]
      rw [show assemble expected acc curLen lens (some p :: (rest.map some ++ [none])) =
          .failed (.wrongStateDiffLength expected (lens ++ [curLen + p.len])) by
        simp [assemble, hpp]]
      rw [show cumLens curLen (p :: rest) =
          (curLen + p.len) :: cumLens (curLen + p.len) rest from rfl]
      simp
    | succ j =>
      have hcum : cumLens curLen (p :: rest) =
          (curLen + p.len) :: cumLens (curLen + p.len) rest := rfl
      rw [hcum] at hget htake
      have hhead : curLen + p.len < expected := htake _ (by simp)
      have hpp : processPart expected acc curLen lens p =
          .more m (curLen + p.len) (lens ++ [curLen + p.len]) := by
        simp [processPart, hplen, hm2, Nat.ne_of_lt hhead, hhead]
      rw [List.map_cons, List.cons_append]
      rw [show assemble expected acc curLen lens (some p :: (rest.map some ++ [none])) =
          assemble expected m (curLen + p.len) (lens ++ [curLen + p.len])
            (rest.map some ++ [none]) by simp [assemble, hpp]]
      rw [ih m (curLen + p.len) (lens ++ [curLen + p.len]) j s
        (fun q hq => hne q (by simp [hq])) hmrest hhead
        (fun x hx => htake x (by simp [hx])) (by simpa using hget) hgt]
      rw [hcum]
      simp [List.append_assoc]

/-- When a merge boundary hits the declared length exactly (all earlier
boundaries below it), the assembly accepts the block. -/
theorem assemble_hits (expected : Nat) :
    ∀ (ps : List ThinStateDiff) (acc : ThinStateDiff) (curLen : Nat) (lens : List Nat)
      (i : Nat),
      (∀ p ∈ ps, p.len ≠ 0) → (mergeAll? acc ps).isSome = true → curLen < expected →
      (∀ x ∈ (cumLens curLen ps).take i, x < expected) →
      (cumLens curLen ps).get? i = some expected →
      ∃ d rest, assemble expected acc curLen lens (ps.map some ++ [none]) =
        .accepted d rest := by
  intro ps
  induction ps with
  | nil =>
    intro acc curLen lens i _ _ _ _ hget
    simp [cumLens] at hget
  | cons p rest ih =>
    intro acc curLen lens i hne hm hcur htake hget
    have hplen : p.len ≠ 0 := hne p (by simp)
    obtain ⟨m, hm2⟩ : ∃ m, acc.merge p = some m := by
      cases hm2 : acc.merge p with
      | none =>
        rw [mergeAll?, hm2] at hm
        simp at hm
      | some m => exact ⟨m, rfl⟩
    have hmrest : (mergeAll? m rest).isSome = true := by
      rw [mergeAll?, hm2] at hm
      exact hm
    have hcum : cumLens curLen (p :: rest) =
        (curLen + p.len) :: cumLens (curLen + p.len) rest := rfl
    cases i with
    | zero =>
      rw [hcum] at hget
      simp at hget
      have hpp : processPart expected acc curLen lens p = .completed m := by
        simp [processPart, hplen, hm2, hget]
      refine ⟨m, rest.map some ++ [none], ?_⟩
      rw [List.map_cons, List.cons_append]
      simp [assemble, hpp]
    | succ j =>
      rw [hcum] at hget htake
      have hhead : curLen + p.len < expected := htake _ (by simp)
      have hpp : processPart expected acc curLen lens p =
          .more m (curLen + p.len) (lens ++ [curLen + p.len]) := by
        simp [processPart, hplen, hm2, Nat.ne_of_lt hhead, hhead]
      obtain ⟨d, rest2, hrec⟩ := ih m (curLen + p.len) (lens ++ [curLen + p.len]) j
        (fun q hq => hne q (by simp [hq])) hmrest hhead
        (fun x hx => htake x (by simp [hx])) (by simpa using hget)
      refine ⟨d, rest2, ?_⟩
      rw [List.map_cons, List.cons_append]
      rw [show assemble expected acc curLen lens (some p :: (rest.map some ++ [none])) =
          assemble expected m (curLen + p.len) (lens ++ [curLen + p.len])
            (rest.map some ++ [none]) by simp [assemble, hpp]]
      exact hrec

/-- Whenever the assembly fails with `WrongStateDiffLength`, the declared
length it carries is the header's and its boundary list extends the boundaries
already recorded by positive running lengths only. -/
theorem assemble_wrong_shape (expected : Nat) :
    ∀ (parts : List (Option ThinStateDiff)) (acc : ThinStateDiff) (curLen : Nat)
      (lens : List Nat) (e : Nat) (pls : List Nat),
      (∀ x ∈ lens, 0 < x) →
      assemble expected acc curLen lens parts = .failed (.wrongStateDiffLength e pls) →
      e = expected ∧ ∀ x ∈ pls, 0 < x := by
  intro parts
  induction parts with
  | nil =>
    intro acc curLen lens e pls _ hfail
    simp [assemble] at hfail
  | cons part rest ih =>
    intro acc curLen lens e pls hlens hfail
    cases part with
    | none =>
      rw [show assemble expected acc curLen lens (none :: rest) =
          .failed (.wrongStateDiffLength expected lens) from rfl] at hfail
      injection hfail with h1
      injection h1 with h2 h3
      subst h2
      subst h3
      exact ⟨rfl, hlens⟩
    | some p =>
      rcases processPart_cases expected acc curLen lens p with
        ⟨hp0, hpp⟩ | ⟨hp0, hm, hpp⟩ | ⟨m, hp0, hm, heq, hpp⟩ |
        ⟨m, hp0, hm, hlt, hpp⟩ | ⟨m, hp0, hm, hgt, hpp⟩
      · rw [show assemble expected acc curLen lens (some p :: rest) =
            .failed .emptyStateDiffPart by simp [assemble, hpp]] at hfail
        simp at hfail
      · rw [show assemble expected acc curLen lens (some p :: rest) =
            .failed .conflictingStateDiffParts by simp [assemble, hpp]] at hfail
        simp at hfail
      · rw [show assemble expected acc curLen lens (some p :: rest) =
            .accepted m rest by simp [assemble, hpp]] at hfail
        simp at hfail
      · rw [show assemble expected acc curLen lens (some p :: rest) =
            assemble expected m (curLen + p.len) (lens ++ [curLen + p.len]) rest by
          simp [assemble, hpp]] at hfail
        refine ih m (curLen + p.len) (lens ++ [curLen + p.len]) e pls ?_ hfail
        intro x hx
        rcases List.mem_append.mp hx with hx | hx
        · exact hlens x hx
        · simp at hx
          omega
      · rw [show assemble expected acc curLen lens (some p :: rest) =
            .failed (.wrongStateDiffLength expected (lens ++ [curLen + p.len])) by
          simp [assemble, hpp]] at hfail
        injection hfail with h1
        injection h1 with h2 h3
        subst h2
        subst h3
        refine ⟨rfl, ?_⟩
        intro x hx
        rcases List.mem_append.mp hx with hx | hx
        · exact hlens x hx
        · simp at hx
          omega

/-- One engine step preserves the per-block storage invariant: before the
commit the storage is untouched, after it the storage is exactly the commit. -/
theorem engineStep_preserves (s : Storage) (st : BlockState) (part : Option ThinStateDiff)
    (h : st.storage = s ∧
        ((∃ a c l, st.phase = .assembling a c l) ∨ ∃ e, st.phase = .failed e)
      ∨ ∃ d, st.phase = .committed d ∧ st.storage = s.commitBlock d) :
    (engineStep st part).storage = s ∧
        ((∃ a c l, (engineStep st part).phase = .assembling a c l)
          ∨ ∃ e, (engineStep st part).phase = .failed e)
      ∨ ∃ d, (engineStep st part).phase = .committed d ∧
          (engineStep st part).storage = s.commitBlock d := by
  rcases h with ⟨hs, ⟨a, c, l, hph⟩ | ⟨e, hph⟩⟩ | ⟨d, hph, hs⟩
  · cases part with
    | none =>
      left
      refine ⟨?_, Or.inr ⟨.wrongStateDiffLength st.expected l, ?_⟩⟩
      · simp [engineStep, hph, hs]
      · simp [engineStep, hph]
    | some p =>
      cases hpp : processPart st.expected a c l p with
      | completed d =>
        right
        refine ⟨d, ?_, ?_⟩
        · simp [engineStep, hph, hpp]
        · simp [engineStep, hph, hpp, hs]
      | more a2 c2 l2 =>
        left
        refine ⟨?_, Or.inl ⟨a2, c2, l2, ?_⟩⟩
        · simp [engineStep, hph, hpp, hs]
        · simp [engineStep, hph, hpp]
      | failed e =>
        left
        refine ⟨?_, Or.inr ⟨e, ?_⟩⟩
        · simp [engineStep, hph, hpp, hs]
        · simp [engineStep, hph, hpp]
  · have hid : engineStep st part = st := by
      unfold engineStep
      rw [hph]
    rw [hid]
    exact Or.inl ⟨hs, Or.inr ⟨e, hph⟩⟩
  · have hid : engineStep st part = st := by
      unfold engineStep
      rw [hph]
    rw [hid]
    exact Or.inr ⟨d, hph, hs⟩

/-- Running the engine preserves the per-block storage invariant. -/
theorem runEngine_preserves (s : Storage) :
    ∀ (parts : List (Option ThinStateDiff)) (st : BlockState),
      (st.storage = s ∧
          ((∃ a c l, st.phase = .assembling a c l) ∨ ∃ e, st.phase = .failed e)
        ∨ ∃ d, st.phase = .committed d ∧ st.storage = s.commitBlock d) →
      ((runEngine st parts).storage = s ∧
          ((∃ a c l, (runEngine st parts).phase = .assembling a c l)
            ∨ ∃ e, (runEngine st parts).phase = .failed e)
        ∨ ∃ d, (runEngine st parts).phase = .committed d ∧
            (runEngine st parts).storage = s.commitBlock d) := by
  intro parts
  induction parts with
  | nil =>
    intro st h
    exact h
  | cons part rest ih =>
    intro st h
    have hcons : runEngine st (part :: rest) = runEngine (engineStep st part) rest := by
      unfold runEngine
      rw [List.foldl_cons]
    rw [hcons]
    exact ih (engineStep st part) (engineStep_preserves s st part h)

/-- C1: a block whose state-diff assembly is accepted is committed atomically.
Starting from any storage with marker `b`, the marker is still `b` and nothing
for block `b` is readable at every point while parts are still being
assembled; on a failure the storage is unchanged (neither the diff nor the
marker advance persist); and when the engine reaches the committed phase with
merged diff `d` the storage is exactly the one-block append: the marker
advanced from `b` to `b + 1` exactly once and `get_state_diff(b)` returns
exactly `d`. -/
theorem state_diff_commit_atomic (s : Storage) (expected : Nat)
    (parts : List (Option ThinStateDiff)) :
    (∀ k a c l, (runEngine (initBlock s expected) (parts.take k)).phase = .assembling a c l →
        (runEngine (initBlock s expected) (parts.take k)).storage = s)
    ∧ (∀ k e, (runEngine (initBlock s expected) (parts.take k)).phase = .failed e →
        (runEngine (initBlock s expected) (parts.take k)).storage = s
        ∧ ((runEngine (initBlock s expected) (parts.take k)).storage).state_marker =
            s.state_marker
        ∧ ((runEngine (initBlock s expected) (parts.take k)).storage).get_state_diff
            s.state_marker = none)
    ∧ (∀ k, (runEngine (initBlock s expected) (parts.take k)).storage = s
        ∨ ∃ d, (runEngine (initBlock s expected) (parts.take k)).storage = s.commitBlock d)
    ∧ (∀ d, (runEngine (initBlock s expected) parts).phase = .committed d →
        (runEngine (initBlock s expected) parts).storage = s.commitBlock d
        ∧ ((runEngine (initBlock s expected) parts).storage).state_marker =
            s.state_marker + 1
        ∧ ((runEngine (initBlock s expected) parts).storage).get_state_diff
            s.state_marker = some d) := by
  have hinit : (initBlock s expected).storage = s ∧
      ((∃ a c l, (initBlock s expected).phase = .assembling a c l)
        ∨ ∃ e, (initBlock s expected).phase = .failed e)
      ∨ ∃ d, (initBlock s expected).phase = .committed d ∧
          (initBlock s expected).storage = s.commitBlock d :=
    Or.inl ⟨rfl, Or.inl ⟨ThinStateDiff.empty, 0, [], rfl⟩⟩
  have hmarker_none : s.get_state_diff s.state_marker = none := by
    unfold Storage.get_state_diff Storage.state_marker
    exact List.getElem?_eq_none (Nat.le_refl _)
  refine ⟨?_, ?_, ?_, ?_⟩
  · intro k a c l hph
    rcases runEngine_preserves s (parts.take k) (initBlock s expected) hinit with
      ⟨hs, _⟩ | ⟨d, hph2, _⟩
    · exact hs
    · rw [hph] at hph2
      simp at hph2
  · intro k e hph
    rcases runEngine_preserves s (parts.take k) (initBlock s expected) hinit with
      ⟨hs, _⟩ | ⟨d, hph2, _⟩
    · rw [hs]
      exact ⟨rfl, rfl, hmarker_none⟩
    · rw [hph] at hph2
      simp at hph2
  · intro k
    rcases runEngine_preserves s (parts.take k) (initBlock s expected) hinit with
      ⟨hs, _⟩ | ⟨d, _, hs⟩
    · exact Or.inl hs
    · exact Or.inr ⟨d, hs⟩
  · intro d hph
    rcases runEngine_preserves s parts (initBlock s expected) hinit with
      ⟨_, ⟨a, c, l, hph2⟩ | ⟨e, hph2⟩⟩ | ⟨d2, hph2, hs⟩
    · rw [hph] at hph2
      simp at hph2
    · rw [hph] at hph2
      simp at hph2
    · rw [hph] at hph2
      have hd : d2 = d := by
        injection hph2 with hd
        exact hd.symm
      subst hd
      refine ⟨hs, ?_, ?_⟩
      · rw [hs]
        unfold Storage.commitBlock Storage.state_marker
        simp
      · rw [hs]
        unfold Storage.commitBlock Storage.get_state_diff Storage.state_marker
        exact List.getElem?_concat_length s.diffs d2

/-- C1 witness: committing one block of declared length 1 from one part over
an empty storage advances the marker to 1 and stores exactly that part. -/
theorem state_diff_commit_atomic_witness :
    (runEngine (initBlock ⟨[]⟩ 1) [some partLen1]).phase = .committed partLen1
    ∧ (runEngine (initBlock ⟨[]⟩ 1) [some partLen1]).storage.state_marker = 1
    ∧ (runEngine (initBlock ⟨[]⟩ 1) [some partLen1]).storage.get_state_diff 0 =
        some partLen1 := by
  have h := (state_diff_commit_atomic ⟨[]⟩ 1 [some partLen1]).2.2.2 partLen1 (by decide)
  exact ⟨by decide, h.2.1, h.2.2⟩

/-- C2: the assembly fails with `WrongStateDiffLength` in exactly two cases:
when the first merge boundary reaching the declared length strictly exceeds it
(possible_lengths lists the boundaries up to and including the overshoot), and
when end-of-query arrives with every boundary still below the declared length
(possible_lengths lists all boundaries); a boundary hitting the declared
length exactly is accepted instead, any such failure carries the header's
declared length and only positive lengths (zero excluded), and the claim's two
examples hold: declared length 2 with parts of lengths 1 then 2 gives
possible_lengths [1, 3], declared length 2 with one part of length 1 followed
by end-of-query gives possible_lengths [1]. -/
theorem wrong_state_diff_length_characterization (expected : Nat)
    (ps : List ThinStateDiff)
    (hne : ∀ p ∈ ps, p.len ≠ 0)
    (hmerge : (mergeAll? ThinStateDiff.empty ps).isSome = true)
    (hpos : 0 < expected) :
    ((∀ x ∈ cumLens 0 ps, x < expected) →
      assemble expected ThinStateDiff.empty 0 [] (ps.map some ++ [none]) =
        .failed (.wrongStateDiffLength expected (cumLens 0 ps)))
    ∧ (∀ i x, (∀ y ∈ (cumLens 0 ps).take i, y < expected) →
        (cumLens 0 ps).get? i = some x → expected < x →
        assemble expected ThinStateDiff.empty 0 [] (ps.map some ++ [none]) =
          .failed (.wrongStateDiffLength expected ((cumLens 0 ps).take (i + 1))))
    ∧ (∀ i, (∀ y ∈ (cumLens 0 ps).take i, y < expected) →
        (cumLens 0 ps).get? i = some expected →
        ∃ d rest, assemble expected ThinStateDiff.empty 0 [] (ps.map some ++ [none]) =
          .accepted d rest)
    ∧ (∀ (parts : List (Option ThinStateDiff)) (e : Nat) (pls : List Nat),
        assemble expected ThinStateDiff.empty 0 [] parts =
          .failed (.wrongStateDiffLength e pls) →
        e = expected ∧ ∀ x ∈ pls, 0 < x)
    ∧ assemble 2 ThinStateDiff.empty 0 [] [some partLen1, some partLen2] =
        .failed (.wrongStateDiffLength 2 [1, 3])
    ∧ assemble 2 ThinStateDiff.empty 0 [] [some partLen1, none] =
        .failed (.wrongStateDiffLength 2 [1]) := by
  refine ⟨?_, ?_, ?_, ?_, by decide, by decide⟩
  · intro hbelow
    have h := assemble_below expected ps ThinStateDiff.empty 0 [] hne hmerge hpos hbelow
    simpa using h
  · intro i x htake hget hgt
    have h := assemble_exceeds expected ps ThinStateDiff.empty 0 [] i x hne hmerge hpos
      htake hget hgt
    simpa using h
  · intro i htake hget
    exact assemble_hits expected ps ThinStateDiff.empty 0 [] i hne hmerge hpos htake hget
  · intro parts e pls hfail
    exact assemble_wrong_shape expected parts ThinStateDiff.empty 0 [] e pls
      (by intro x hx; simp at hx) hfail

/-- C2 witness: one part of length 1 against a declared length of 2 followed
by end-of-query fails with possible_lengths [1]. -/
theorem wrong_state_diff_length_characterization_witness :
    assemble 2 ThinStateDiff.empty 0 [] ([partLen1].map some ++ [none]) =
      .failed (.wrongStateDiffLength 2 (cumLens 0 [partLen1])) :=
  (wrong_state_diff_length_characterization 2 [partLen1] (by decide) (by decide)
    (by decide)).1 (by decide)

/-- C3: a received part is rejected with `EmptyStateDiffPart` exactly when its
`len()` (the sum of entry counts across the six fields) is zero; a part whose
only content is a contract key mapped to an empty inner storage map has
`len() = 0` and is so rejected. -/
theorem empty_state_diff_part_iff :
    (∀ (expected : Nat) (acc : ThinStateDiff) (curLen : Nat) (lens : List Nat)
        (p : ThinStateDiff),
        processPart expected acc curLen lens p = .failed .emptyStateDiffPart ↔ p.len = 0)
    ∧ emptyStoragePart.len = 0
    ∧ processPart 1 ThinStateDiff.empty 0 [] emptyStoragePart =
        .failed .emptyStateDiffPart := by
  refine ⟨?_, by decide, by decide⟩
  intro expected acc curLen lens p
  unfold processPart
  by_cases hp : p.len = 0
  · simp [hp]
  · simp only [hp, if_false]
    cases hm : acc.merge p with
    | none => simp
    | some m =>
      simp only
      by_cases h1 : curLen + p.len = expected
      · simp [h1, hp]
      · by_cases h2 : curLen + p.len < expected <;> simp [h1, h2, hp]

/-- C4 counterexample: a part that overlaps the accumulated diff (contract 0
appears in both storage_diffs) but has `len() = 0` is rejected with
`EmptyStateDiffPart`, not `ConflictingStateDiffParts`. -/
theorem conflicting_overlap_empty_counterexample :
    ThinStateDiff.overlaps accWithStorage emptyStoragePart = true
    ∧ processPart 2 accWithStorage 1 [1] emptyStoragePart = .failed .emptyStateDiffPart
    ∧ processPart 2 accWithStorage 1 [1] emptyStoragePart ≠
        .failed .conflictingStateDiffParts := by
  decide

/-- C4 (amended): a received part with nonzero `len()` makes the engine fail
with `ConflictingStateDiffParts` exactly when it overlaps the accumulated diff
on one of the six fields (the same contract address, class hash or storage key
appearing in both), regardless of whether the duplicated entries carry equal
values; a part with `len() = 0` is rejected as `EmptyStateDiffPart` first. -/
theorem conflicting_state_diff_parts_iff (expected : Nat) (acc : ThinStateDiff)
    (curLen : Nat) (lens : List Nat) (p : ThinStateDiff) (hp : p.len ≠ 0) :
    processPart expected acc curLen lens p = .failed .conflictingStateDiffParts ↔
      acc.overlaps p = true := by
  unfold processPart
  simp only [hp, if_false]
  unfold ThinStateDiff.merge
  by_cases ho : acc.overlaps p
  · simp [ho]
  · simp only [ho, if_false]
    simp only [Bool.not_eq_true] at ho
    by_cases h1 : curLen + p.len = expected
    · simp [h1, ho]
    · by_cases h2 : curLen + p.len < expected <;> simp [h1, h2, ho]

/-- C4 witness: two parts deploying contract 0 with different class hashes
conflict at the merge. -/
theorem conflicting_state_diff_parts_iff_witness :
    processPart 5 accDeployed 1 [1] partDeployedSameKey =
      .failed .conflictingStateDiffParts :=
  (conflicting_state_diff_parts_iff 5 accDeployed 1 [1] partDeployedSameKey
    (by decide)).mpr (by decide)

/-- C5 counterexample: a nonempty peer set whose only peer is blocked makes
`assign_peer_to_query` return `none`. -/
theorem assign_peer_all_blocked_counterexample :
    blockedOnlyPM.peers ≠ [] ∧ (assign_peer_to_query blockedOnlyPM 0).1 = none := by
  decide

/-- C5 (amended): `assign_peer_to_query` returns `none` exactly when every
peer of the peer set is blocked (in particular when the set is empty); it
returns `some` exactly when some non-blocked peer exists. -/
theorem assign_peer_none_iff_all_blocked (pm : PeerManager) (query_id : Nat) :
    (assign_peer_to_query pm query_id).1 = none ↔
      ∀ p ∈ pm.peers, p.2.blocked = true := by
  unfold assign_peer_to_query
  by_cases he : pm.peers.isEmpty
  · rw [List.isEmpty_iff] at he
    simp [he]
  · simp only [he, Bool.false_eq_true, if_false]
    cases hf :
        (pm.peers.drop pm.last_peer_index ++ pm.peers.take pm.last_peer_index).find?
          (fun p => !p.2.blocked) with
    | none =>
      simp only [hf]
      rw [List.find?_eq_none] at hf
      simp only [true_iff]
      intro p hp
      have hnb := hf p ((mem_rotation pm.peers pm.last_peer_index p).mpr hp)
      simp at hnb
      exact hnb
    | some pr =>
      obtain ⟨pid, peer⟩ := pr
      have hpred := List.find?_some hf
      have hmem : (pid, peer) ∈ pm.peers :=
        (mem_rotation pm.peers pm.last_peer_index _).mp (List.mem_of_find?_eq_some hf)
      have hblocked : peer.blocked = false := by simpa using hpred
      simp only [hf]
      constructor
      · intro h
        cases hc : peer.connected <;> simp [hc] at h
      · intro h
        have hcontra := h (pid, peer) hmem
        simp [hblocked] at hcontra

/-- C6 counterexample: with two non-blocked peers and `last_peer_index = 0`,
`assign_peer_to_query` selects the peer at index `last_peer_index` (peer 10),
not the peer at index `last_peer_index + 1` (peer 20) that the claim's
rotation start names. -/
theorem round_robin_start_index_counterexample :
    (assign_peer_to_query twoPeerPM 0).1 = some 10
    ∧ assignPeerSpecStartPlusOne twoPeerPM = some 20
    ∧ (assign_peer_to_query twoPeerPM 0).1 ≠ assignPeerSpecStartPlusOne twoPeerPM := by
  decide

/-- With no blocked peer and a valid index, one call returns the peer at index
`last_peer_index`, leaves the peer set unchanged and steps the index. -/
theorem assign_all_unblocked (pm : PeerManager) (q : Nat)
    (hnb : ∀ p ∈ pm.peers, p.2.blocked = false)
    (hi : pm.last_peer_index < pm.peers.length) :
    (assign_peer_to_query pm q).1 = pm.peers[pm.last_peer_index]?.map Prod.fst
    ∧ (assign_peer_to_query pm q).2.peers = pm.peers
    ∧ (assign_peer_to_query pm q).2.last_peer_index =
        (pm.last_peer_index + 1) % pm.peers.length := by
  have hne : pm.peers ≠ [] := List.ne_nil_of_length_pos (by omega)
  have hemp : pm.peers.isEmpty = false := by
    simpa [List.isEmpty_iff] using hne
  have hdrop : pm.peers.drop pm.last_peer_index =
      pm.peers[pm.last_peer_index] :: pm.peers.drop (pm.last_peer_index + 1) :=
    List.drop_eq_getElem_cons hi
  have hmem : pm.peers[pm.last_peer_index] ∈ pm.peers := List.getElem_mem hi
  have hpred : (!(pm.peers[pm.last_peer_index]).2.blocked) = true := by
    rw [hnb _ hmem]
    rfl
  have hfind : (pm.peers.drop pm.last_peer_index ++
      pm.peers.take pm.last_peer_index).find? (fun p => !p.2.blocked) =
      some pm.peers[pm.last_peer_index] := by
    rw [hdrop, List.cons_append]
    exact List.find?_cons_of_pos _ hpred
  have hget : pm.peers[pm.last_peer_index]? = some pm.peers[pm.last_peer_index] :=
    List.getElem?_eq_getElem hi
  refine ⟨?_, ?_, ?_⟩ <;>
    · simp only [assign_peer_to_query, hemp, hfind, hget, Bool.false_eq_true, if_false]
      cases hc : (pm.peers[pm.last_peer_index]).2.connected <;> simp [hc]

/-- The k-th of a run of consecutive calls over a stable fully-unblocked peer
set returns the peer at index `last_peer_index + k` modulo the peer count. -/
theorem assignSeq_getElem (qs : List Nat) :
    ∀ (pm : PeerManager) (k : Nat),
      (∀ p ∈ pm.peers, p.2.blocked = false) →
      pm.last_peer_index < pm.peers.length →
      k < qs.length →
      (assignSeq pm qs)[k]? =
        some ((pm.peers[(pm.last_peer_index + k) % pm.peers.length]?).map Prod.fst) := by
  induction qs with
  | nil =>
    intro pm k _ _ hk
    simp at hk
  | cons q rest ih =>
    intro pm k hnb hi hk
    obtain ⟨h1, h2, h3⟩ := assign_all_unblocked pm q hnb hi
    cases k with
    | zero =>
      have hzero : (assignSeq pm (q :: rest))[0]? = some (assign_peer_to_query pm q).1 := by
        simp [assignSeq]
      rw [hzero, h1]
      have : (pm.last_peer_index + 0) % pm.peers.length = pm.last_peer_index := by
        rw [Nat.add_zero]
        exact Nat.mod_eq_of_lt hi
      rw [this]
    | succ j =>
      have hsucc : (assignSeq pm (q :: rest))[j + 1]? =
          (assignSeq (assign_peer_to_query pm q).2 rest)[j]? := by
        simp [assignSeq]
      rw [hsucc]
      have hnb2 : ∀ p ∈ (assign_peer_to_query pm q).2.peers, p.2.blocked = false := by
        rw [h2]
        exact hnb
      have hpos : 0 < pm.peers.length := by omega
      have hi2 : (assign_peer_to_query pm q).2.last_peer_index <
          (assign_peer_to_query pm q).2.peers.length := by
        rw [h3, h2]
        exact Nat.mod_lt _ hpos
      have hrec := ih (assign_peer_to_query pm q).2 j hnb2 hi2 (by simpa using hk)
      rw [h2, h3] at hrec
      rw [hrec]
      have hidx : ((pm.last_peer_index + 1) % pm.peers.length + j) % pm.peers.length =
          (pm.last_peer_index + (j + 1)) % pm.peers.length := by
        rw [Nat.mod_add_mod]
        congr 1
        omega
      rw [hidx]

/-- Over a stable non-empty peer set with zero blocked peers, `peer_count`
consecutive calls choose every peer. -/
theorem assign_cycle (pm : PeerManager) (qs : List Nat)
    (hnb : ∀ p ∈ pm.peers, p.2.blocked = false)
    (hi : pm.last_peer_index < pm.peers.length)
    (hlen : qs.length = pm.peers.length) :
    ∀ pr ∈ pm.peers, some pr.1 ∈ assignSeq pm qs := by
  intro pr hpr
  obtain ⟨j, hj, hget⟩ := List.getElem_of_mem hpr
  have hn : 0 < pm.peers.length := by omega
  have hk : (j + pm.peers.length - pm.last_peer_index) % pm.peers.length <
      pm.peers.length := Nat.mod_lt _ hn
  have hidx : (pm.last_peer_index +
      (j + pm.peers.length - pm.last_peer_index) % pm.peers.length) %
      pm.peers.length = j := by
    rw [Nat.add_comm pm.last_peer_index, Nat.mod_add_mod]
    have harith : j + pm.peers.length - pm.last_peer_index + pm.last_peer_index =
        j + pm.peers.length := by omega
    rw [harith, Nat.add_mod_right]
    exact Nat.mod_eq_of_lt hj
  have hgetk := assignSeq_getElem qs pm
    ((j + pm.peers.length - pm.last_peer_index) % pm.peers.length) hnb hi (by omega)
  rw [hidx] at hgetk
  have hq : pm.peers[j]? = some pr := by
    rw [List.getElem?_eq_getElem hj, hget]
  rw [hq] at hgetk
  obtain ⟨hklen, hkeq⟩ := List.getElem?_eq_some.mp hgetk
  exact List.mem_iff_getElem.mpr ⟨_, hklen, hkeq⟩

/-- C6 (amended): for every call on a non-empty peer set, the returned peer is
the first non-blocked peer in the rotation starting at index
`last_peer_index` (not `last_peer_index + 1`) and wrapping around once,
`last_peer_index` is set to `(last_peer_index + 1) mod peer_count` on every
such call independent of whether a non-blocked peer was found, and over a
stable non-empty peer set with zero blocked peers every peer is chosen within
`peer_count` consecutive calls. -/
theorem round_robin_rotation_properties (pm : PeerManager) (query_id : Nat)
    (queries : List Nat) (hne : pm.peers ≠ []) :
    (assign_peer_to_query pm query_id).1 =
      ((pm.peers.drop pm.last_peer_index ++ pm.peers.take pm.last_peer_index).find?
        (fun p => !p.2.blocked)).map Prod.fst
    ∧ (assign_peer_to_query pm query_id).2.last_peer_index =
        (pm.last_peer_index + 1) % pm.peers.length
    ∧ ((∀ p ∈ pm.peers, p.2.blocked = false) →
        pm.last_peer_index < pm.peers.length →
        queries.length = pm.peers.length →
        ∀ pr ∈ pm.peers, some pr.1 ∈ assignSeq pm queries) := by
  have hemp : pm.peers.isEmpty = false := by
    simpa [List.isEmpty_iff] using hne
  refine ⟨?_, ?_, ?_⟩
  · cases hf : (pm.peers.drop pm.last_peer_index ++
        pm.peers.take pm.last_peer_index).find? (fun p => !p.2.blocked) with
    | none =>
      simp [assign_peer_to_query, hemp, hf]
    | some pr =>
      obtain ⟨pid, peer⟩ := pr
      simp only [assign_peer_to_query, hemp, hf, Bool.false_eq_true, if_false]
      cases hc : peer.connected <;> simp [hc]
  · cases hf : (pm.peers.drop pm.last_peer_index ++
        pm.peers.take pm.last_peer_index).find? (fun p => !p.2.blocked) with
    | none =>
      simp [assign_peer_to_query, hemp, hf]
    | some pr =>
      obtain ⟨pid, peer⟩ := pr
      simp only [assign_peer_to_query, hemp, hf, Bool.false_eq_true, if_false]
      cases hc : peer.connected <;> simp [hc]
  · intro hnb hi hlen
    exact assign_cycle pm queries hnb hi hlen

/-- C6 witness: on two non-blocked peers with index 0, the rotation equality
and index update hold, and both peers are chosen within two calls. -/
theorem round_robin_rotation_properties_witness :
    (assign_peer_to_query twoPeerPM 0).1 =
      ((twoPeerPM.peers.drop twoPeerPM.last_peer_index ++
        twoPeerPM.peers.take twoPeerPM.last_peer_index).find?
        (fun p => !p.2.blocked)).map Prod.fst
    ∧ (assign_peer_to_query twoPeerPM 0).2.last_peer_index = 1
    ∧ some 20 ∈ assignSeq twoPeerPM [7, 8] := by
  have h := round_robin_rotation_properties twoPeerPM 0 [7, 8] (by decide)
  exact ⟨h.1, h.2.1,
    h.2.2 (by decide) (by decide) (by decide) (20, ⟨false, true, 0⟩) (by decide)⟩

/-- C7: every state-diff query of a window has direction Forward, step 1, data
type StateDiff, starts at the block that is next unwritten when it is issued
(`nextUnwritten + i * k1` for the i-th query), asks for `min(k1, headers
remaining)` blocks and starts strictly below the header marker (so no query is
issued before a header for its starting block arrived, and an empty header
window yields no query); with `k1 < k2 < 2 * k1`, a full header window of `k2`
headers yields exactly the two queries `(start 0, limit k1)` and
`(start k1, limit k2 - k1)`. -/
theorem state_diff_query_windows_shape (k1 headerMarker nextUnwritten : Nat)
    (hk1 : 0 < k1) :
    (∀ i q, (stateDiffQueryWindows k1 headerMarker nextUnwritten)[i]? = some q →
        q = { start_block := nextUnwritten + i * k1
              direction := .forward
              limit := min k1 (headerMarker - (nextUnwritten + i * k1))
              step := 1
              data_type := .stateDiff }
        ∧ nextUnwritten + i * k1 < headerMarker)
    ∧ (headerMarker ≤ nextUnwritten →
        stateDiffQueryWindows k1 headerMarker nextUnwritten = [])
    ∧ (∀ k2, k1 < k2 → k2 < 2 * k1 →
        stateDiffQueryWindows k1 k2 0 =
          [{ start_block := 0, direction := .forward, limit := k1, step := 1
             data_type := .stateDiff },
           { start_block := k1, direction := .forward, limit := k2 - k1, step := 1
             data_type := .stateDiff }]) := by
  refine ⟨?_, ?_, ?_⟩
  · intro i q hq
    unfold stateDiffQueryWindows at hq
    rw [List.getElem?_map] at hq
    by_cases hic : i < (headerMarker - nextUnwritten + k1 - 1) / k1
    · rw [List.getElem?_range hic] at hq
      simp only [Option.map_some'] at hq
      injection hq with hq
      refine ⟨hq.symm, ?_⟩
      have hr : 0 < headerMarker - nextUnwritten := by
        by_contra hcon
        push_neg at hcon
        have hz : (headerMarker - nextUnwritten + k1 - 1) / k1 = 0 :=
          Nat.div_eq_of_lt (by omega)
        omega
      have hmul : (i + 1) * k1 ≤ headerMarker - nextUnwritten + k1 - 1 :=
        (Nat.le_div_iff_mul_le hk1).mp (Nat.succ_le_of_lt hic)
      have hmul2 : i * k1 + k1 ≤ headerMarker - nextUnwritten + k1 - 1 := by
        calc i * k1 + k1 = (i + 1) * k1 := by ring
        _ ≤ _ := hmul
      omega
    · rw [List.getElem?_eq_none (by simpa using Nat.le_of_not_lt hic)] at hq
      simp at hq
  · intro hle
    have hz : (headerMarker - nextUnwritten + k1 - 1) / k1 = 0 :=
      Nat.div_eq_of_lt (by omega)
    unfold stateDiffQueryWindows
    rw [hz]
    rfl
  · intro k2 hlt hlt2
    have hcount : (k2 - 0 + k1 - 1) / k1 = 2 := by
      apply Nat.div_eq_of_lt_le <;> omega
    unfold stateDiffQueryWindows
    rw [hcount]
    have hrange : List.range 2 = [0, 1] := rfl
    rw [hrange]
    simp only [List.map_cons, List.map_nil]
    have hmin0 : min k1 (k2 - (0 + 0 * k1)) = k1 := by
      rw [Nat.min_eq_left]
      omega
    have hmin1 : min k1 (k2 - (0 + 1 * k1)) = k2 - k1 := by
      have h01 : 0 + 1 * k1 = k1 := by ring
      rw [h01, Nat.min_eq_right (by omega)]
    rw [hmin0, hmin1]
    norm_num

/-- C7 witness: with `k1 = 2` and a full header window of `k2 = 3` headers the
engine issues exactly the queries `(0, 2)` and `(2, 1)`. -/
theorem state_diff_query_windows_shape_witness :
    stateDiffQueryWindows 2 3 0 =
      [⟨0, .forward, 2, 1, .stateDiff⟩, ⟨2, .forward, 1, 1, .stateDiff⟩] :=
  (state_diff_query_windows_shape 2 3 0 (by decide)).2.2 3 (by decide) (by decide)

/-- C8: for every inbound session, the swarm receives exactly the DB
executor's items in order, then one `Fin(data_type)`, then `close-inbound` is
issued exactly once; with no items the session receives only `Fin` and is
closed. -/
theorem inbound_session_frame_order {α : Type} (session_id : Nat) (dt : DataType)
    (items : List α) :
    runInboundSession session_id dt (items.map .item ++ [.terminated]) =
      items.map (fun d => SwarmAction.sendFrame session_id (.data d))
        ++ [.sendFrame session_id (.fin dt), .closeInbound session_id]
    ∧ countCloseInbound
        (runInboundSession session_id dt (items.map .item ++ [.terminated])) = 1 := by
  have aux : ∀ (its : List α) (acc : List (SwarmAction α)),
      (its.map DbOutput.item ++ [DbOutput.terminated]).foldl
        (inboundFoldStep session_id dt) (SessionPhase.streaming, acc) =
      (SessionPhase.closed,
        acc ++ its.map (fun d => SwarmAction.sendFrame session_id (.data d))
          ++ [.sendFrame session_id (.fin dt), .closeInbound session_id]) := by
    intro its
    induction its with
    | nil =>
      intro acc
      simp [inboundFoldStep, inboundSessionStep]
    | cons d rest ih =>
      intro acc
      rw [List.map_cons, List.cons_append, List.foldl_cons]
      have hstep : inboundFoldStep session_id dt (SessionPhase.streaming, acc)
          (DbOutput.item d) =
          (SessionPhase.streaming, acc ++ [SwarmAction.sendFrame session_id (.data d)]) := rfl
      rw [hstep, ih]
      simp [List.append_assoc]
  have hrun :
      runInboundSession session_id dt (items.map .item ++ [.terminated]) =
        items.map (fun d => SwarmAction.sendFrame session_id (.data d))
          ++ [.sendFrame session_id (.fin dt), .closeInbound session_id] := by
    unfold runInboundSession
    rw [aux items []]
    simp
  refine ⟨hrun, ?_⟩
  rw [hrun]
  unfold countCloseInbound
  rw [List.filter_append]
  have hnone : (items.map (fun d => SwarmAction.sendFrame session_id (.data d))).filter
      isCloseInbound = [] := by
    clear hrun
    induction items with
    | nil => rfl
    | cons d rest ih =>
      rw [List.map_cons, List.filter_cons_of_neg]
      · exact ih
      · simp [isCloseInbound]
  rw [hnone]
  rfl

/-- C9 (code bug): `decompress_program` decodes base64 twice, and on input
that is not valid base64 the first, discarded decode is unwrapped, so the
function panics instead of returning the `internal_server_error` reply. -/
theorem decompress_program_double_decode (c : Codecs) (input : List Nat) :
    (c.base64Decode input = none → decompress_program c input = (.panicked, 1))
    ∧ (∀ bytes, c.base64Decode input = some bytes →
        (decompress_program c input).2 = 2) := by
  constructor
  · intro h
    unfold decompress_program
    rw [h]
  · intro bytes h
    unfold decompress_program
    rw [h]
    cases hg : c.gzipDecompress bytes with
    | none => simp [hg]
    | some dec =>
      cases hj : c.jsonParseProgram dec with
      | none => simp [hg, hj]
      | some p => simp [hg, hj]

/-- C9 witness: on codecs where base64 decoding fails the function panics
after one decode; on codecs where it succeeds, two decodes are performed. -/
theorem decompress_program_double_decode_witness :
    decompress_program noneCodecs [33] = (.panicked, 1)
    ∧ (decompress_program idCodecs [33]).2 = 2 :=
  ⟨(decompress_program_double_decode noneCodecs [33]).1 rfl,
    (decompress_program_double_decode idCodecs [33]).2 [33] rfl⟩

/-- C10: `FeeEstimate::from` is total: a zero gas price yields the all-zero
default (the division is never run with divisor zero), and a nonzero gas
price yields `gas_consumed = overall_fee / gas_price` (integer division) with
both inputs passed through unchanged. -/
theorem fee_estimate_from_total (gas_price overall_fee : Nat) :
    (gas_price = 0 →
      FeeEstimate.fromGasPriceAndFee gas_price overall_fee = FeeEstimate.default)
    ∧ (gas_price ≠ 0 →
      FeeEstimate.fromGasPriceAndFee gas_price overall_fee =
        ⟨overall_fee / gas_price, gas_price, overall_fee⟩) := by
  constructor
  · rintro rfl
    rfl
  · intro h
    cases gas_price with
    | zero => exact absurd rfl h
    | succ n => rfl

/-- C10 witness: the zero and nonzero gas price cases at concrete inputs. -/
theorem fee_estimate_from_total_witness :
    FeeEstimate.fromGasPriceAndFee 0 5 = FeeEstimate.default
    ∧ FeeEstimate.fromGasPriceAndFee 2 7 = ⟨3, 2, 7⟩ :=
  ⟨(fee_estimate_from_total 0 5).1 rfl, (fee_estimate_from_total 2 7).2 (by decide)⟩
